import Mathlib

/-!
Verification development for the WhisperR repository.

The repository ships two small executable JavaScript artifacts — a GitHub
API wrapper class (`GitHubAPI`) and an MCP server module — plus extensive
documentation of a planned dictation pipeline (audio capture, VAD
segmentation, transcription dispatch, command matching). The pipeline
itself has no implementation in the sources, so its components are
modelled here from the specification text; the JavaScript artifacts are
embedded from their source.
-/

namespace WhisperR

/-! ## Embedding of src/unnamed/part_003 (`GitHubAPI` class)

The class holds an Octokit client and forwards each method call to the
corresponding Octokit endpoint. We model the Octokit client as an
abstract function from requests to responses; each wrapper method builds
the request object exactly as the JavaScript source does.
-/

/-- Parameters object passed to `octokit.repos.createForAuthenticatedUser`
in `createRepo`: `{ name, description, private: isPrivate }`. -/
structure CreateRepoParams where
  name : String
  description : String
  «private» : Bool
deriving DecidableEq, Repr

/-- Parameters object passed to `octokit.repos.createOrUpdateFileContents`
in `createFile`. -/
structure CreateFileParams where
  owner : String
  repo : String
  path : String
  message : String
  content : String
deriving DecidableEq, Repr

/-- Requests a `GitHubAPI` instance can issue to its Octokit client: one
constructor per Octokit endpoint the class touches. -/
inductive OctokitRequest where
  | createForAuthenticatedUser (params : CreateRepoParams)
  | listForAuthenticatedUser
  | createOrUpdateFileContents (params : CreateFileParams)
deriving DecidableEq, Repr

/-- The `repo.owner` object: `createFile` reads `repo.owner.login`. -/
structure RepoOwner where
  login : String
deriving DecidableEq, Repr

/-- A repository object as consumed by `createFile` (`repo.owner.login`,
`repo.name`). -/
structure RepoObject where
  owner : RepoOwner
  name : String
deriving DecidableEq, Repr

/-- UTF-8 encoding of a single code point, as `Buffer.from(string)`
performs byte-wise. Bytes are `Nat` values below 256. -/
def utf8EncodeChar (c : Nat) : List Nat :=
  if c < 0x80 then [c]
  else if c < 0x800 then [0xC0 + c / 64, 0x80 + c % 64]
  else if c < 0x10000 then [0xE0 + c / 4096, 0x80 + (c / 64) % 64, 0x80 + c % 64]
  else [0xF0 + c / 262144, 0x80 + (c / 4096) % 64, 0x80 + (c / 64) % 64, 0x80 + c % 64]

/-- UTF-8 byte sequence of a string, as `Buffer.from(content)` produces. -/
def utf8Bytes (s : String) : List Nat :=
  s.toList.foldr (fun c acc => utf8EncodeChar c.toNat ++ acc) []

/-- Base64 alphabet in index order. -/
def b64Alphabet : List Char :=
  "ABCDEFGHIJKLMNOPQRSTUVWXYZabcdefghijklmnopqrstuvwxyz0123456789+/".toList

/-- Character for a 6-bit group. -/
def b64Char (n : Nat) : Char := b64Alphabet.getD n 'A'

/-- Base64 encoding of a byte list, grouped three bytes at a time with
`=` padding — the behavior of `Buffer.prototype.toString('base64')`. -/
def base64Chars : List Nat → List Char
  | [] => []
  | [a] => [b64Char (a / 4), b64Char (a % 4 * 16), '=', '=']
  | [a, b] => [b64Char (a / 4), b64Char (a % 4 * 16 + b / 16), b64Char (b % 16 * 4), '=']
  | a :: b :: c :: rest =>
    b64Char (a / 4) :: b64Char (a % 4 * 16 + b / 16) ::
      b64Char (b % 16 * 4 + c / 64) :: b64Char (c % 64) :: base64Chars rest

/-- Base64 string for a byte list. -/
def base64Encode (bytes : List Nat) : String := String.mk (base64Chars bytes)

/-- Model of `Buffer.from(content).toString('base64')`. -/
def bufferBase64 (content : String) : String := base64Encode (utf8Bytes content)

namespace GitHubAPI

/-- Method `createRepo(name, description = '', isPrivate = false)`:
optional JavaScript arguments are `Option`s (`none` = omitted), defaulted
exactly as the source defaults them, then forwarded to
`octokit.repos.createForAuthenticatedUser`. -/
def createRepo {ρ : Type} (octokit : OctokitRequest → ρ) (name : String)
    (description : Option String) (isPrivate : Option Bool) : ρ :=
  octokit (OctokitRequest.createForAuthenticatedUser
    { name := name
      description := description.getD ""
      «private» := isPrivate.getD false })

/-- Method `getRepos()`: forwards to `octokit.repos.listForAuthenticatedUser`. -/
def getRepos {ρ : Type} (octokit : OctokitRequest → ρ) : ρ :=
  octokit OctokitRequest.listForAuthenticatedUser

/-- Method `createFile(repo, path, content, message = 'Initial commit')`:
builds the parameters object from `repo.owner.login`, `repo.name`, the
path, the (possibly defaulted) message and the Base64 of the content,
then forwards to `octokit.repos.createOrUpdateFileContents`. -/
def createFile {ρ : Type} (octokit : OctokitRequest → ρ) (repo : RepoObject)
    (path : String) (content : String) (message : Option String) : ρ :=
  octokit (OctokitRequest.createOrUpdateFileContents
    { owner := repo.owner.login
      repo := repo.name
      path := path
      message := message.getD "Initial commit"
      content := bufferBase64 content })

end GitHubAPI

/-! Spec-side characterization of C2: the spec calls the wrapper "a thin
pass-through to an external library". The definitions below package the
arguments and forward them, with the result returned unchanged; C2 states
each source method coincides with this pass-through. -/

/-- Argument packaging the spec attributes to `createRepo`. -/
def packageCreateRepo (name : String) (description : Option String)
    (isPrivate : Option Bool) : OctokitRequest :=
  OctokitRequest.createForAuthenticatedUser
    ⟨name, description.getD "", isPrivate.getD false⟩

/-- Argument packaging the spec attributes to `createFile`. -/
def packageCreateFile (repo : RepoObject) (path content : String)
    (message : Option String) : OctokitRequest :=
  OctokitRequest.createOrUpdateFileContents
    ⟨repo.owner.login, repo.name, path, message.getD "Initial commit",
      bufferBase64 content⟩

/-- Thin pass-through per the spec: hand the packaged request to the
external client and return its result unchanged. -/
def thinPassThrough {ρ : Type} (octokit : OctokitRequest → ρ)
    (req : OctokitRequest) : ρ :=
  octokit req

/-! ## Embedding of src/github_api_mcp_server/index.js

The module evaluates `createMCP({...})` at load time. The argument object
contains a template literal interpolating `process.env.GITHUB_USER`,
`process.env.GITHUB_PAT` and the bare identifier `repo_name`. We embed
the JavaScript fragments that module-load evaluation touches: values,
identifier scopes, member access and template-literal interpolation. -/

/-- JavaScript values occurring during load of the MCP module. -/
inductive JSValue where
  | undef
  | boolean (b : Bool)
  | str (s : String)
  | func
  | obj (fields : List (String × JSValue))
deriving Repr

/-- Property read on an object: missing properties yield `undefined`. -/
def lookupField : List (String × JSValue) → String → JSValue
  | [], _ => JSValue.undef
  | (k, v) :: rest, f => if k = f then v else lookupField rest f

/-- Member access `v.f`. Reading a property of `undefined` throws a
TypeError; property reads on other values yield the field or
`undefined`. -/
def getMember : JSValue → String → Except String JSValue
  | JSValue.obj fields, f => Except.ok (lookupField fields f)
  | JSValue.undef, f =>
    Except.error ("TypeError: cannot read properties of undefined (reading " ++ f ++ ")")
  | _, _ => Except.ok JSValue.undef

/-- String conversion applied to an interpolated template value. -/
def displayValue : JSValue → String
  | JSValue.undef => "undefined"
  | JSValue.boolean b => if b then "true" else "false"
  | JSValue.str s => s
  | JSValue.func => "function"
  | JSValue.obj _ => "[object Object]"

/-- One piece of a template literal: literal text, or an interpolation of
an identifier followed by member accesses (`${base.f1.f2}`). -/
inductive TplPart where
  | text (s : String)
  | interp (base : String) (path : List String)

/-- Evaluation of one interpolation: the base identifier is looked up in
scope — an unbound identifier is a ReferenceError — then member accesses
apply in order. -/
def evalInterp (scope : String → Option JSValue) (base : String)
    (path : List String) : Except String JSValue :=
  match scope base with
  | none => Except.error ("ReferenceError: " ++ base ++ " is not defined")
  | some v => path.foldlM getMember v

/-- Evaluation of a template literal, left to right, the first error
aborting the whole literal. -/
def evalTemplate (scope : String → Option JSValue) : List TplPart → Except String String
  | [] => Except.ok ""
  | TplPart.text s :: rest => do
    let r ← evalTemplate scope rest
    Except.ok (s ++ r)
  | TplPart.interp base path :: rest => do
    let v ← evalInterp scope base path
    let r ← evalTemplate scope rest
    Except.ok (displayValue v ++ r)

/-- The `process.env` object for given (possibly unset) `GITHUB_USER` and
`GITHUB_PAT` environment variables. -/
def envObject (ghUser ghPat : Option String) : JSValue :=
  JSValue.obj
    ((match ghUser with
      | some u => [("GITHUB_USER", JSValue.str u)]
      | none => []) ++
     (match ghPat with
      | some p => [("GITHUB_PAT", JSValue.str p)]
      | none => []))

/-- Identifiers bound when the module body of index.js evaluates:
`createMCP` (from the require), and the ambient `require`, `module` and
`process` bindings. `repo_name` is bound nowhere. -/
def moduleScope (ghUser ghPat : Option String) : String → Option JSValue :=
  fun x =>
    if x = "createMCP" then some JSValue.func
    else if x = "require" then some JSValue.func
    else if x = "module" then some (JSValue.obj [("exports", JSValue.obj [])])
    else if x = "process" then some (JSValue.obj [("env", envObject ghUser ghPat)])
    else none

/-- Template literal of the `create_repo` tool's `command` property,
exactly as written in index.js (`\x7b` and `\x7d` denote the literal
curly braces of the JSON payload). -/
def createRepoToolCommand : List TplPart :=
  [TplPart.text "curl -X POST https://api.github.com/user/repos -u ",
   TplPart.interp "process" ["env", "GITHUB_USER"],
   TplPart.text ":",
   TplPart.interp "process" ["env", "GITHUB_PAT"],
   TplPart.text " -d '\x7b\"name\":\"",
   TplPart.interp "repo_name" [],
   TplPart.text "\"\x7d'"]

/-- Load-time evaluation of the MCP module: the `createMCP` argument
object (including the tool's command template) is evaluated first; only
if that succeeds does the module build and export the `mcp` object. -/
def loadMCPModule (ghUser ghPat : Option String) : Except String JSValue := do
  let cmd ← evalTemplate (moduleScope ghUser ghPat) createRepoToolCommand
  Except.ok (JSValue.obj
    [("name", JSValue.str "GitHub API MCP Server"),
     ("description", JSValue.str "An MCP server for interacting with GitHub using its API."),
     ("tools", JSValue.obj
       [("0", JSValue.obj
         [("name", JSValue.str "create_repo"),
          ("description", JSValue.str "Create a new repository on GitHub."),
          ("command", JSValue.str cmd),
          ("requires_approval", JSValue.boolean true)])])])

/-! ## Theorems for the JavaScript artifacts (C2, C8, C9, C10) -/

/-- Sanity check grounding the Base64 model against a known vector. -/
theorem bufferBase64_hello : bufferBase64 "hello" = "aGVsbG8=" := by decide

/-- C2: every method of the GitHubAPI class (createRepo, getRepos,
createFile) is a thin pass-through: it forwards its arguments to the
corresponding method of the external Octokit client and returns that
call's result unchanged, with no additional logic beyond argument
packaging. -/
theorem githubapi_methods_thin_passthrough :
    (∀ (ρ : Type) (octokit : OctokitRequest → ρ) (name : String)
        (description : Option String) (isPrivate : Option Bool),
      GitHubAPI.createRepo octokit name description isPrivate =
        thinPassThrough octokit (packageCreateRepo name description isPrivate)) ∧
    (∀ (ρ : Type) (octokit : OctokitRequest → ρ),
      GitHubAPI.getRepos octokit =
        thinPassThrough octokit OctokitRequest.listForAuthenticatedUser) ∧
    (∀ (ρ : Type) (octokit : OctokitRequest → ρ) (repo : RepoObject)
        (path content : String) (message : Option String),
      GitHubAPI.createFile octokit repo path content message =
        thinPassThrough octokit (packageCreateFile repo path content message)) :=
  ⟨fun _ _ _ _ _ => rfl, fun _ _ => rfl, fun _ _ _ _ _ _ => rfl⟩

/-- C8: createRepo called with only the name argument requests creation
of a public repository with an empty description — the omitted
parameters default to description = '' and private = false in the
Octokit call. -/
theorem createRepo_omitted_args_default (ρ : Type) (octokit : OctokitRequest → ρ)
    (name : String) :
    GitHubAPI.createRepo octokit name none none =
      octokit (OctokitRequest.createForAuthenticatedUser
        { name := name, description := "", «private» := false }) :=
  rfl

/-- C9: createFile passes octokit the owner taken from repo.owner.login,
the repo name from repo.name, the content encoded as the Base64 of the
given string, and, when no message argument is supplied, the commit
message 'Initial commit'. -/
theorem createFile_field_packaging (ρ : Type) (octokit : OctokitRequest → ρ)
    (repo : RepoObject) (path content : String) :
    GitHubAPI.createFile octokit repo path content none =
      octokit (OctokitRequest.createOrUpdateFileContents
        { owner := repo.owner.login
          repo := repo.name
          path := path
          message := "Initial commit"
          content := base64Encode (utf8Bytes content) }) :=
  rfl

/-- C10: loading src/github_api_mcp_server/index.js always fails with a
ReferenceError for the unbound identifier repo_name, for every
environment (independent of GITHUB_USER and GITHUB_PAT). -/
theorem loadMCPModule_always_referenceerror (ghUser ghPat : Option String) :
    loadMCPModule ghUser ghPat =
      Except.error "ReferenceError: repo_name is not defined" := by
  cases ghUser <;> cases ghPat <;> rfl

/-! ## Pipeline data model

Modelled from the spec: the dictation pipeline (Segment lifecycle, VAD,
Segment Recorder, Transcription Dispatcher, Command Matcher, Output
Sink) has no implementation in the supplied sources; the definitions
below follow sections 3, 4 and 8 of the specification. -/

/-- Modelled from the spec: Segment lifecycle states
Open, Closed, Submitted, Transcribed, Discarded (section 3). -/
inductive Lifecycle where
  | Open
  | Closed
  | Submitted
  | Transcribed
  | Discarded
deriving DecidableEq, Repr

/-! ## Command Matcher (spec section 4.4) -/

/-- Modelled from the spec: a CommandBinding is a trigger phrase (text
pattern with wildcard support), an action template and an enabled flag. -/
structure CommandBinding where
  trigger : String
  action : String
  enabled : Bool
deriving DecidableEq, Repr

/-- Case-folded character list of a string, for case-insensitive
matching. -/
def foldChars (s : String) : List Char := s.toList.map Char.toLower

/-- Strips `pat` from the front of `text`, returning the remainder when
`pat` is a prefix. -/
def stripPre : List Char → List Char → Option (List Char)
  | [], text => some text
  | _ :: _, [] => none
  | a :: as, b :: bs => if a = b then stripPre as bs else none

/-- Finds the first occurrence of `pat` as a contiguous run in `text`
and returns the suffix after it. -/
def stripToAfter (pat : List Char) : List Char → Option (List Char)
  | [] => stripPre pat []
  | c :: t =>
    match stripPre pat (c :: t) with
    | some rest => some rest
    | none => stripToAfter pat t

/-- Splits a trigger pattern on its wildcard character. -/
def splitStar : List Char → List (List Char)
  | [] => [[]]
  | c :: rest =>
    if c = '*' then [] :: splitStar rest
    else
      match splitStar rest with
      | [] => [[c]]
      | p :: ps => (c :: p) :: ps

/-- Modelled from the spec: the literal pieces of the pattern must occur
in order in the text, wildcard slots absorbing the gaps. -/
def matchSeq : List (List Char) → List Char → Bool
  | [], _ => true
  | p :: ps, text =>
    match stripToAfter p text with
    | some rest => matchSeq ps rest
    | none => false

/-- Modelled from the spec: a trigger pattern matches a substring of the
text case-insensitively, wildcard slots matching arbitrary gaps
(section 4.4). -/
def triggerMatches (trigger text : String) : Bool :=
  matchSeq (splitStar (foldChars trigger)) (foldChars text)

/-- Participation of one binding: only enabled bindings participate, and
the trigger must match. -/
def bindingFires (b : CommandBinding) (text : String) : Bool :=
  b.enabled && triggerMatches b.trigger text

/-- Modelled from the spec: the Command Matcher scans bindings in
configuration order and selects the first that fires (section 4.4). -/
def matchCommand (bindings : List CommandBinding) (text : String) :
    Option CommandBinding :=
  bindings.find? (fun b => bindingFires b text)

/-- Destination of a TranscriptionResult's text after command matching. -/
inductive RoutedOutput where
  | command (action : String)
  | dictation (text : String)
deriving DecidableEq, Repr

/-- Modelled from the spec: a matched binding's action is executed; when
no binding matches the text goes to the Output Sink as plain dictation. -/
def routeResult (bindings : List CommandBinding) (text : String) : RoutedOutput :=
  match matchCommand bindings text with
  | some b => RoutedOutput.command b.action
  | none => RoutedOutput.dictation text

/-- Actions fired for one TranscriptionResult. -/
def firedActions (bindings : List CommandBinding) (text : String) : List String :=
  (matchCommand bindings text).toList.map CommandBinding.action

/-- First-match characterization of `List.find?`: a found element
satisfies the predicate and everything before its position fails it. -/
theorem find?_some_first {α : Type} (p : α → Bool) (l : List α) (a : α)
    (h : l.find? p = some a) :
    p a = true ∧
      ∃ i, l.get? i = some a ∧
        ∀ j, j < i → ∀ b, l.get? j = some b → p b = false := by
  induction l with
  | nil => simp [List.find?] at h
  | cons x xs ih =>
    by_cases hp : p x = true
    · rw [List.find?_cons_of_pos _ hp] at h
      obtain rfl : x = a := by injection h
      exact ⟨hp, 0, rfl, fun j hj => by omega⟩
    · rw [List.find?_cons_of_neg _ hp] at h
      obtain ⟨hpa, i, hi, hbefore⟩ := ih h
      refine ⟨hpa, i + 1, hi, ?_⟩
      intro j hj b hb
      cases j with
      | zero =>
        obtain rfl : x = b := by injection hb
        simpa using hp
      | succ k =>
        exact hbefore k (by omega) b hb

/-- Example bindings of spec section 8. -/
def exampleBindings : List CommandBinding :=
  [{ trigger := "open firefox", action := "firefox", enabled := true },
   { trigger := "open notes", action := "notepad", enabled := true }]

/-- C4: the Command Matcher selects the first enabled binding in
configuration order whose trigger matches a substring of the text
case-insensitively; at most one binding fires per TranscriptionResult;
on the spec's example bindings and the input "please open firefox now"
only the firefox action fires; with no match the text is routed to the
Output Sink as plain dictation. -/
theorem command_matcher_first_match :
    (∀ (bs : List CommandBinding) (t : String) (b : CommandBinding),
      matchCommand bs t = some b →
        bindingFires b t = true ∧
          ∃ i, bs.get? i = some b ∧
            ∀ j, j < i → ∀ b', bs.get? j = some b' → bindingFires b' t = false) ∧
    (∀ (bs : List CommandBinding) (t : String), (firedActions bs t).length ≤ 1) ∧
    (∀ (bs : List CommandBinding) (t : String),
      matchCommand bs t = none → routeResult bs t = RoutedOutput.dictation t) ∧
    (matchCommand exampleBindings "please open firefox now" =
      some { trigger := "open firefox", action := "firefox", enabled := true } ∧
     firedActions exampleBindings "please open firefox now" = ["firefox"]) := by
  refine ⟨?_, ?_, ?_, ?_, ?_⟩
  · intro bs t b h
    exact find?_some_first _ bs b h
  · intro bs t
    unfold firedActions
    cases matchCommand bs t <;> simp
  · intro bs t h
    unfold routeResult
    rw [h]
  · decide
  · decide

/-- Concrete instantiation of the first-match property on the spec's
example bindings. -/
theorem command_matcher_first_match_witness :
    bindingFires { trigger := "open firefox", action := "firefox", enabled := true }
        "please open firefox now" = true ∧
      ∃ i, exampleBindings.get? i =
          some { trigger := "open firefox", action := "firefox", enabled := true } ∧
        ∀ j, j < i → ∀ b', exampleBindings.get? j = some b' →
          bindingFires b' "please open firefox now" = false :=
  command_matcher_first_match.1 exampleBindings "please open firefox now"
    { trigger := "open firefox", action := "firefox", enabled := true } (by decide)

/-! ## Transcription Dispatcher (spec sections 4.3 and 8) -/

/-- Modelled from the spec: the dispatcher drains the queue of closed
segments one at a time on a single worker. Input pairs a segment id with
the engine latency for that segment; output records, in production
order, the segment id, the time its transcription starts and the time
it completes. -/
def runDispatcherIntervals (t : Nat) : List (Nat × Nat) → List (Nat × Nat × Nat)
  | [] => []
  | (s, l) :: q => (s, t, t + l) :: runDispatcherIntervals (t + l) q

/-- Completion times of a dispatcher run all exceed its start time when
every latency is positive. -/
theorem runDispatcherIntervals_finish_gt (t : Nat) (q : List (Nat × Nat))
    (hpos : ∀ p ∈ q, 1 ≤ p.2) :
    ∀ r ∈ runDispatcherIntervals t q, t < r.2.2 := by
  induction q generalizing t with
  | nil => intro r hr; simp [runDispatcherIntervals] at hr
  | cons hd q ih =>
    obtain ⟨s, l⟩ := hd
    intro r hr
    rw [runDispatcherIntervals] at hr
    rcases List.mem_cons.mp hr with rfl | hr
    · have : 1 ≤ l := hpos (s, l) (List.mem_cons_self _ _)
      simp only []
      omega
    · have h1 : 1 ≤ l := hpos (s, l) (List.mem_cons_self _ _)
      have := ih (t + l) (fun p hp => hpos p (List.mem_cons_of_mem _ hp)) r hr
      omega

/-- C3: for segments closed in order S1, S2, S3, ..., the dispatcher
produces results in exactly that order, whatever the per-segment engine
latencies; processing is one segment at a time (each transcription
starts no earlier than the previous one finishes), and with positive
latencies the completion times are strictly increasing, so the results
appear in emission order. -/
theorem dispatcher_results_in_order (t : Nat) (q : List (Nat × Nat)) :
    ((runDispatcherIntervals t q).map (fun r => r.1) = q.map Prod.fst) ∧
    ((runDispatcherIntervals t q).Chain' (fun a b => a.2.2 ≤ b.2.1)) ∧
    ((∀ p ∈ q, 1 ≤ p.2) →
      ((runDispatcherIntervals t q).map (fun r => r.2.2)).Pairwise (· < ·)) := by
  induction q generalizing t with
  | nil => simp [runDispatcherIntervals]
  | cons hd q ih =>
    obtain ⟨s, l⟩ := hd
    obtain ⟨ih1, ih2, ih3⟩ := ih (t + l)
    refine ⟨?_, ?_, ?_⟩
    · simp [runDispatcherIntervals, ih1]
    · rw [runDispatcherIntervals]
      apply List.chain'_cons'.mpr
      refine ⟨?_, ih2⟩
      intro r hr
      cases q with
      | nil => simp [runDispatcherIntervals] at hr
      | cons hd2 q2 =>
        obtain ⟨s2, l2⟩ := hd2
        rw [runDispatcherIntervals] at hr
        simp only [List.head?_cons, Option.mem_def, Option.some.injEq] at hr
        subst hr
        exact Nat.le_refl _
    · intro hpos
      rw [runDispatcherIntervals]
      simp only [List.map_cons]
      apply List.pairwise_cons.mpr
      refine ⟨?_, ih3 (fun p hp => hpos p (List.mem_cons_of_mem _ hp))⟩
      intro x hx
      obtain ⟨r, hr, rfl⟩ := List.mem_map.mp hx
      have := runDispatcherIntervals_finish_gt (t + l) q
        (fun p hp => hpos p (List.mem_cons_of_mem _ hp)) r hr
      omega

/-- Concrete instantiation of the dispatcher ordering property: three
segments with unequal latencies. -/
theorem dispatcher_results_in_order_witness :
    ((runDispatcherIntervals 0 [(1, 7), (2, 2), (3, 5)]).map (fun r => r.2.2)).Pairwise
      (· < ·) :=
  (dispatcher_results_in_order 0 [(1, 7), (2, 2), (3, 5)]).2.2 (by decide)

/-- Outcome of dispatching one segment: its id, final lifecycle state
and transcribed text when the engine succeeded. -/
structure DispatchOutcome where
  seg : Nat
  status : Lifecycle
  text : Option String
deriving DecidableEq, Repr

/-- Modelled from the spec: the dispatcher submits each queued segment
to the engine; success yields a Transcribed segment with its text,
engine failure (non-zero exit or timeout) marks the segment Discarded;
the pipeline continues with the next segment and never resubmits
(sections 4.3 and 7). -/
def dispatchAll (engine : Nat → Option String) : List Nat → List DispatchOutcome
  | [] => []
  | s :: q =>
    (match engine s with
     | some txt => DispatchOutcome.mk s Lifecycle.Transcribed (some txt)
     | none => DispatchOutcome.mk s Lifecycle.Discarded none) :: dispatchAll engine q

/-- Modelled from the spec: the Output Sink receives exactly the
successfully transcribed texts. -/
def sinkTexts (engine : Nat → Option String) (q : List Nat) : List (Nat × String) :=
  (dispatchAll engine q).filterMap (fun o => o.text.map (fun txt => (o.seg, txt)))

/-- Segments reported failed: those whose outcome is Discarded. -/
def failedSegs (engine : Nat → Option String) (q : List Nat) : List Nat :=
  ((dispatchAll engine q).filter
    (fun o => decide (o.status = Lifecycle.Discarded))).map DispatchOutcome.seg

/-- Membership in the sink determines the engine's answer: a pair can
reach the Output Sink only by a successful engine call on its segment. -/
theorem sinkTexts_mem (engine : Nat → Option String) (q : List Nat)
    (s : Nat) (txt : String) (h : (s, txt) ∈ sinkTexts engine q) :
    engine s = some txt := by
  induction q with
  | nil => simp [sinkTexts, dispatchAll] at h
  | cons x q ih =>
    rw [sinkTexts, dispatchAll] at h
    rcases hx : engine x with _ | t0
    · rw [hx] at h
      simp only [List.filterMap_cons] at h
      exact ih (by simpa [sinkTexts] using h)
    · rw [hx] at h
      simp only [List.filterMap_cons, Option.map_some] at h
      rcases List.mem_cons.mp h with heq | h
      · simp only [Prod.mk.injEq] at heq
        obtain ⟨rfl, rfl⟩ := heq
        exact hx
      · exact ih (by simpa [sinkTexts] using h)

/-- C5: if the engine fails on one segment of a dispatched sequence,
that segment is reported failed and excluded from the Output Sink while
every successfully transcribed segment still produces its result; every
queued segment is processed exactly once (no resubmission). -/
theorem dispatcher_partial_failure (engine : Nat → Option String) (q : List Nat) :
    ((dispatchAll engine q).map DispatchOutcome.seg = q) ∧
    (∀ s ∈ q, engine s = none →
      s ∈ failedSegs engine q ∧ ∀ txt, (s, txt) ∉ sinkTexts engine q) ∧
    (∀ s ∈ q, ∀ txt, engine s = some txt →
      DispatchOutcome.mk s Lifecycle.Transcribed (some txt) ∈ dispatchAll engine q ∧
        (s, txt) ∈ sinkTexts engine q) ∧
    (∀ s, (dispatchAll engine q).countP (fun o => decide (o.seg = s)) = q.count s) := by
  refine ⟨?_, ?_, ?_, ?_⟩
  · induction q with
    | nil => simp [dispatchAll]
    | cons x q ih =>
      rw [dispatchAll]
      rcases hx : engine x with _ | t0 <;> simp [ih]
  · intro s hs hfail
    constructor
    · induction q with
      | nil => simp at hs
      | cons x q ih =>
        rw [failedSegs, dispatchAll]
        rcases List.mem_cons.mp hs with rfl | hs'
        · rw [hfail]
          simp [List.filter_cons]
        · rcases hx : engine x with _ | t0
          · simpa [List.filter_cons, failedSegs] using Or.inr (by simpa [failedSegs] using ih hs')
          · simpa [List.filter_cons, failedSegs] using ih hs'
    · intro txt hmem
      have := sinkTexts_mem engine q s txt hmem
      rw [hfail] at this
      exact Option.noConfusion this
  · intro s hs txt hok
    induction q with
    | nil => simp at hs
    | cons x q ih =>
      rcases List.mem_cons.mp hs with rfl | hs'
      · rw [dispatchAll, hok, sinkTexts, dispatchAll, hok]
        simp
      · obtain ⟨h1, h2⟩ := ih hs'
        rw [dispatchAll, sinkTexts, dispatchAll]
        rcases hx : engine x with _ | t0
        · exact ⟨List.mem_cons_of_mem _ h1,
            by simpa [sinkTexts] using h2⟩
        · exact ⟨List.mem_cons_of_mem _ h1,
            List.mem_cons_of_mem _ (by simpa [sinkTexts] using h2)⟩
  · intro s
    induction q with
    | nil => simp [dispatchAll]
    | cons x q ih =>
      rw [dispatchAll]
      rcases hx : engine x with _ | t0 <;>
        simp only [List.countP_cons, List.count_cons, ih] <;>
        by_cases hxs : x = s <;> simp [hxs]

/-- Engine that fails exactly on segment 2, used to instantiate the
partial-failure theorem. -/
def engineFailingOn2 : Nat → Option String :=
  fun n => if n = 2 then none else some "ok"

/-- Concrete instantiation of partial-failure isolation: segment 2 fails,
is excluded from the sink, and segments 1 and 3 still produce results. -/
theorem dispatcher_partial_failure_witness :
    (2 ∈ failedSegs engineFailingOn2 [1, 2, 3] ∧
      ∀ txt, (2, txt) ∉ sinkTexts engineFailingOn2 [1, 2, 3]) ∧
    (DispatchOutcome.mk 1 Lifecycle.Transcribed (some "ok") ∈
        dispatchAll engineFailingOn2 [1, 2, 3] ∧
      (1, "ok") ∈ sinkTexts engineFailingOn2 [1, 2, 3]) :=
  ⟨(dispatcher_partial_failure engineFailingOn2 [1, 2, 3]).2.1 2 (by decide) rfl,
   (dispatcher_partial_failure engineFailingOn2 [1, 2, 3]).2.2.1 1 (by decide) "ok" rfl⟩

/-! ## Voice Activity Detector and Segment Recorder sessions
(spec sections 4.1, 4.2, 4.4 state machine, 8) -/

/-- Modelled from the spec: VAD parameters — the calibrated silence
threshold, the number N of consecutive above-threshold frames that
starts speech, and the number M of consecutive below-threshold frames
that ends it (section 4.1). -/
structure VadConfig where
  threshold : Nat
  speechFrames : Nat
  silenceFrames : Nat
deriving DecidableEq, Repr

/-- Rolling VAD classification state: current class and the length of
the run of frames contradicting it. -/
structure VadState where
  speaking : Bool
  run : Nat
deriving DecidableEq, Repr

/-- Boundary events the VAD emits. -/
inductive VadEvent where
  | SegmentStart
  | SegmentEnd
deriving DecidableEq, Repr

/-- Modelled from the spec: one VAD step — Speech begins once energy
exceeds the threshold for ≥ N consecutive frames (SegmentStart on the
Silence→Speech transition), Silence returns once energy stays at or
below the threshold for ≥ M consecutive frames (SegmentEnd after the
trailing padding elapses). -/
def vadStep (cfg : VadConfig) (st : VadState) (energy : Nat) :
    VadState × Option VadEvent :=
  if st.speaking then
    if energy ≤ cfg.threshold then
      if cfg.silenceFrames ≤ st.run + 1 then (⟨false, 0⟩, some VadEvent.SegmentEnd)
      else (⟨true, st.run + 1⟩, none)
    else (⟨true, 0⟩, none)
  else
    if cfg.threshold < energy then
      if cfg.speechFrames ≤ st.run + 1 then (⟨true, 0⟩, some VadEvent.SegmentStart)
      else (⟨false, st.run + 1⟩, none)
    else (⟨false, 0⟩, none)

/-- A segment as the Segment Recorder builds it: captured frame
energies in order, plus its lifecycle state. -/
structure SessionSegment where
  frames : List Nat
  status : Lifecycle
deriving DecidableEq, Repr

/-- Recorder/session state: active flag, VAD state, frame-index clock,
segment list in creation order and emitted VAD events with their frame
indices. -/
structure SessionState where
  active : Bool
  vad : VadState
  time : Nat
  segments : List SessionSegment
  events : List (VadEvent × Nat)
deriving DecidableEq, Repr

/-- Session recording modes of the data model (section 3). -/
inductive Mode where
  | Continuous
  | VAD
  | PushToTalk
deriving DecidableEq, Repr

/-- Control and data events driving a session. -/
inductive SessionEvent where
  | start
  | frame (energy : Nat)
  | stop
deriving DecidableEq, Repr

/-- Appends a captured frame to the currently open segment. -/
def appendFrameToOpen (segs : List SessionSegment) (e : Nat) : List SessionSegment :=
  segs.map fun s =>
    if s.status = Lifecycle.Open then { s with frames := s.frames ++ [e] } else s

/-- Closes every open segment (explicit stop, or SegmentEnd). -/
def closeOpenSegs (segs : List SessionSegment) : List SessionSegment :=
  segs.map fun s =>
    if s.status = Lifecycle.Open then { s with status := Lifecycle.Closed } else s

/-- Modelled from the spec: one step of the session state machine
(sections 4.2 and 4.4). With VAD off (Continuous recording), start opens
the single segment, every frame is appended to it regardless of energy,
and only stop closes it. With VAD on, SegmentStart opens a segment,
frames classified as speech are appended, and SegmentEnd closes it;
stop flushes any still-open segment. -/
def sessionStep (vadOn : Bool) (cfg : VadConfig) (st : SessionState) :
    SessionEvent → SessionState
  | SessionEvent.start =>
    { active := true
      vad := ⟨false, 0⟩
      time := 0
      segments := st.segments ++ (if vadOn then [] else [⟨[], Lifecycle.Open⟩])
      events := st.events }
  | SessionEvent.frame e =>
    if st.active then
      if vadOn then
        match vadStep cfg st.vad e with
        | (vad2, some VadEvent.SegmentStart) =>
          { st with
            vad := vad2
            time := st.time + 1
            segments := st.segments ++ [⟨[e], Lifecycle.Open⟩]
            events := st.events ++ [(VadEvent.SegmentStart, st.time)] }
        | (vad2, some VadEvent.SegmentEnd) =>
          { st with
            vad := vad2
            time := st.time + 1
            segments := closeOpenSegs st.segments
            events := st.events ++ [(VadEvent.SegmentEnd, st.time)] }
        | (vad2, none) =>
          { st with
            vad := vad2
            time := st.time + 1
            segments := if vad2.speaking then appendFrameToOpen st.segments e
                        else st.segments }
      else
        { st with
          time := st.time + 1
          segments := appendFrameToOpen st.segments e }
    else st
  | SessionEvent.stop =>
    { st with active := false, segments := closeOpenSegs st.segments }

/-- Idle initial session state. -/
def initSession : SessionState := ⟨false, ⟨false, 0⟩, 0, [], []⟩

/-- Runs a session over a list of events. -/
def runSession (vadOn : Bool) (cfg : VadConfig) (events : List SessionEvent) :
    SessionState :=
  events.foldl (sessionStep vadOn cfg) initSession

/-- Session run over one manual start, a captured frame trace, without
the closing stop. -/
def recordingPhase (vadOn : Bool) (cfg : VadConfig) (trace : List Nat) : SessionState :=
  runSession vadOn cfg (SessionEvent.start :: trace.map SessionEvent.frame)

/-- Full manual start/stop cycle over a captured frame trace. -/
def fullCycle (vadOn : Bool) (cfg : VadConfig) (trace : List Nat) : SessionState :=
  runSession vadOn cfg (SessionEvent.start :: trace.map SessionEvent.frame ++
    [SessionEvent.stop])

/-- Continuous-mode frame processing appends every frame to the open
segment, whatever its energy. -/
theorem foldl_continuous_frames (cfg : VadConfig) (es : List Nat) (v : VadState)
    (i : Nat) (fs : List Nat) (evs : List (VadEvent × Nat)) :
    List.foldl (sessionStep false cfg)
        ⟨true, v, i, [⟨fs, Lifecycle.Open⟩], evs⟩ (es.map SessionEvent.frame) =
      ⟨true, v, i + es.length, [⟨fs ++ es, Lifecycle.Open⟩], evs⟩ := by
  induction es generalizing i fs with
  | nil => simp
  | cons e es ih =>
    simp only [List.map_cons, List.foldl_cons]
    have hstep : sessionStep false cfg ⟨true, v, i, [⟨fs, Lifecycle.Open⟩], evs⟩
        (SessionEvent.frame e) =
        ⟨true, v, i + 1, [⟨fs ++ [e], Lifecycle.Open⟩], evs⟩ := by
      simp [sessionStep, appendFrameToOpen]
    rw [hstep, ih, List.append_assoc, List.singleton_append, List.length_cons]
    have h1 : i + 1 + es.length = i + (es.length + 1) := by omega
    rw [h1]

/-- C6: in Continuous mode every single manual start/stop cycle yields
exactly one Segment spanning the whole recording, regardless of any
internal silence in the frame energies; before the explicit stop the
segment is still Open, and the stop alone closes it. -/
theorem continuous_single_segment (cfg : VadConfig) (trace : List Nat) :
    (fullCycle false cfg trace).segments = [⟨trace, Lifecycle.Closed⟩] ∧
    (recordingPhase false cfg trace).segments = [⟨trace, Lifecycle.Open⟩] := by
  have hrec : List.foldl (sessionStep false cfg) initSession
      (SessionEvent.start :: trace.map SessionEvent.frame) =
      ⟨true, ⟨false, 0⟩, trace.length, [⟨trace, Lifecycle.Open⟩], []⟩ := by
    rw [List.foldl_cons]
    have hstart : sessionStep false cfg initSession SessionEvent.start =
        ⟨true, ⟨false, 0⟩, 0, [⟨[], Lifecycle.Open⟩], []⟩ := rfl
    rw [hstart]
    simpa using foldl_continuous_frames cfg trace ⟨false, 0⟩ 0 [] []
  constructor
  · show (runSession false cfg
        (SessionEvent.start :: trace.map SessionEvent.frame ++ [SessionEvent.stop])).segments = _
    unfold runSession
    rw [show SessionEvent.start :: trace.map SessionEvent.frame ++ [SessionEvent.stop] =
        (SessionEvent.start :: trace.map SessionEvent.frame) ++ [SessionEvent.stop] from rfl,
      List.foldl_append, hrec]
    simp [sessionStep, closeOpenSegs]
  · show (runSession false cfg
        (SessionEvent.start :: trace.map SessionEvent.frame)).segments = _
    unfold runSession
    rw [hrec]

/-- Silence-side hangover accumulation: any run of above-threshold
frames too short to reach the N-run leaves the VAD in Silence, only
growing the run counter; no event is emitted and no frame is captured. -/
theorem foldl_vad_silence_above (cfg : VadConfig) :
    ∀ (xs : List Nat), (∀ f ∈ xs, cfg.threshold < f) →
      ∀ (r i : Nat) (segs : List SessionSegment) (evs : List (VadEvent × Nat)),
        r + xs.length < cfg.speechFrames →
        List.foldl (sessionStep true cfg) ⟨true, ⟨false, r⟩, i, segs, evs⟩
            (xs.map SessionEvent.frame) =
          ⟨true, ⟨false, r + xs.length⟩, i + xs.length, segs, evs⟩ := by
  intro xs
  induction xs with
  | nil => intro _ r i segs evs hk; simp
  | cons x xs ih =>
    intro hhi r i segs evs hk
    have hx : cfg.threshold < x := hhi x (List.mem_cons_self _ _)
    simp only [List.length_cons] at hk ⊢
    simp only [List.map_cons, List.foldl_cons]
    have hstep : sessionStep true cfg ⟨true, ⟨false, r⟩, i, segs, evs⟩
        (SessionEvent.frame x) = ⟨true, ⟨false, r + 1⟩, i + 1, segs, evs⟩ := by
      have h1 : ¬ cfg.speechFrames ≤ r + 1 := by omega
      simp [sessionStep, vadStep, hx, h1]
    rw [hstep, ih (fun f hf => hhi f (List.mem_cons_of_mem _ hf)) (r + 1) (i + 1)
      segs evs (by omega)]
    have e1 : r + 1 + xs.length = r + (xs.length + 1) := by omega
    have e2 : i + 1 + xs.length = i + (xs.length + 1) := by omega
    rw [e1, e2]

/-- During speech, above-threshold frames keep the VAD speaking with an
empty contradiction run and are appended to the open segment. -/
theorem foldl_vad_speaking_above (cfg : VadConfig) :
    ∀ (xs : List Nat), (∀ f ∈ xs, cfg.threshold < f) →
      ∀ (i : Nat) (fs : List Nat) (evs : List (VadEvent × Nat)),
        List.foldl (sessionStep true cfg)
            ⟨true, ⟨true, 0⟩, i, [⟨fs, Lifecycle.Open⟩], evs⟩
            (xs.map SessionEvent.frame) =
          ⟨true, ⟨true, 0⟩, i + xs.length, [⟨fs ++ xs, Lifecycle.Open⟩], evs⟩ := by
  intro xs
  induction xs with
  | nil => intro _ i fs evs; simp
  | cons x xs ih =>
    intro hhi i fs evs
    have hx : cfg.threshold < x := hhi x (List.mem_cons_self _ _)
    simp only [List.length_cons]
    simp only [List.map_cons, List.foldl_cons]
    have hstep : sessionStep true cfg
        ⟨true, ⟨true, 0⟩, i, [⟨fs, Lifecycle.Open⟩], evs⟩
        (SessionEvent.frame x) =
        ⟨true, ⟨true, 0⟩, i + 1, [⟨fs ++ [x], Lifecycle.Open⟩], evs⟩ := by
      have h2 : ¬ x ≤ cfg.threshold := by omega
      simp [sessionStep, vadStep, h2, appendFrameToOpen]
    rw [hstep, ih (fun f hf => hhi f (List.mem_cons_of_mem _ hf)) (i + 1)
      (fs ++ [x]) evs, List.append_assoc, List.singleton_append]
    have e2 : i + 1 + xs.length = i + (xs.length + 1) := by omega
    rw [e2]

/-- During speech, below-threshold frames short of the M-run grow the
trailing-padding counter while still being captured into the open
segment. -/
theorem foldl_vad_speaking_below (cfg : VadConfig) :
    ∀ (xs : List Nat), (∀ f ∈ xs, f ≤ cfg.threshold) →
      ∀ (r i : Nat) (fs : List Nat) (evs : List (VadEvent × Nat)),
        r + xs.length < cfg.silenceFrames →
        List.foldl (sessionStep true cfg)
            ⟨true, ⟨true, r⟩, i, [⟨fs, Lifecycle.Open⟩], evs⟩
            (xs.map SessionEvent.frame) =
          ⟨true, ⟨true, r + xs.length⟩, i + xs.length,
            [⟨fs ++ xs, Lifecycle.Open⟩], evs⟩ := by
  intro xs
  induction xs with
  | nil => intro _ r i fs evs hk; simp
  | cons x xs ih =>
    intro hlo r i fs evs hk
    have hx : x ≤ cfg.threshold := hlo x (List.mem_cons_self _ _)
    simp only [List.length_cons] at hk ⊢
    simp only [List.map_cons, List.foldl_cons]
    have hstep : sessionStep true cfg
        ⟨true, ⟨true, r⟩, i, [⟨fs, Lifecycle.Open⟩], evs⟩
        (SessionEvent.frame x) =
        ⟨true, ⟨true, r + 1⟩, i + 1, [⟨fs ++ [x], Lifecycle.Open⟩], evs⟩ := by
      have h1 : ¬ cfg.silenceFrames ≤ r + 1 := by omega
      simp [sessionStep, vadStep, hx, h1, appendFrameToOpen]
    rw [hstep, ih (fun f hf => hlo f (List.mem_cons_of_mem _ hf)) (r + 1) (i + 1)
      (fs ++ [x]) evs (by omega), List.append_assoc, List.singleton_append]
    have e1 : r + 1 + xs.length = r + (xs.length + 1) := by omega
    have e2 : i + 1 + xs.length = i + (xs.length + 1) := by omega
    rw [e1, e2]

/-- In silence, below-threshold frames leave the whole state unchanged
except for the clock. -/
theorem foldl_vad_silence_below (cfg : VadConfig) :
    ∀ (xs : List Nat), (∀ f ∈ xs, f ≤ cfg.threshold) →
      ∀ (i : Nat) (segs : List SessionSegment) (evs : List (VadEvent × Nat)),
        List.foldl (sessionStep true cfg) ⟨true, ⟨false, 0⟩, i, segs, evs⟩
            (xs.map SessionEvent.frame) =
          ⟨true, ⟨false, 0⟩, i + xs.length, segs, evs⟩ := by
  intro xs
  induction xs with
  | nil => intro _ i segs evs; simp
  | cons x xs ih =>
    intro hlo i segs evs
    have hx : x ≤ cfg.threshold := hlo x (List.mem_cons_self _ _)
    simp only [List.length_cons]
    simp only [List.map_cons, List.foldl_cons]
    have hstep : sessionStep true cfg ⟨true, ⟨false, 0⟩, i, segs, evs⟩
        (SessionEvent.frame x) = ⟨true, ⟨false, 0⟩, i + 1, segs, evs⟩ := by
      have h2 : ¬ cfg.threshold < x := by omega
      simp [sessionStep, vadStep, h2]
    rw [hstep, ih (fun f hf => hlo f (List.mem_cons_of_mem _ hf)) (i + 1) segs evs]
    have e2 : i + 1 + xs.length = i + (xs.length + 1) := by omega
    rw [e2]

/-- C7: on any frame energy trace that exceeds the threshold for a ≥ N
consecutive frames and then stays at or below it for b ≥ M consecutive
frames — the energies may vary arbitrarily within each phase — the VAD
emits exactly one SegmentStart (at frame N−1) and exactly one SegmentEnd
(at frame a+M−1), the recorder closes exactly one segment, and that
segment's duration (captured frame count) equals the span between the
two transitions. -/
theorem vad_one_start_one_end (cfg : VadConfig) (hs ls : List Nat)
    (hN : 1 ≤ cfg.speechFrames) (hM : 1 ≤ cfg.silenceFrames)
    (ha : cfg.speechFrames ≤ hs.length) (hb : cfg.silenceFrames ≤ ls.length)
    (hhi : ∀ f ∈ hs, cfg.threshold < f) (hlo : ∀ f ∈ ls, f ≤ cfg.threshold) :
    (recordingPhase true cfg (hs ++ ls)).events =
        [(VadEvent.SegmentStart, cfg.speechFrames - 1),
         (VadEvent.SegmentEnd, hs.length + cfg.silenceFrames - 1)] ∧
    (recordingPhase true cfg (hs ++ ls)).segments =
        [⟨hs.drop (cfg.speechFrames - 1) ++ ls.take (cfg.silenceFrames - 1),
          Lifecycle.Closed⟩] ∧
    ∀ s ∈ (recordingPhase true cfg (hs ++ ls)).segments,
      s.frames.length =
        (hs.length + cfg.silenceFrames - 1) - (cfg.speechFrames - 1) := by
  obtain ⟨xs, e, ys, rfl, hxslen⟩ :
      ∃ xs e ys, hs = xs ++ e :: ys ∧ xs.length = cfg.speechFrames - 1 := by
    obtain ⟨e, ys, hd⟩ : ∃ e ys, hs.drop (cfg.speechFrames - 1) = e :: ys := by
      cases hdrop : hs.drop (cfg.speechFrames - 1) with
      | nil =>
        exfalso
        have := congrArg List.length hdrop
        simp only [List.length_drop, List.length_nil] at this
        omega
      | cons e ys => exact ⟨e, ys, rfl⟩
    have hseq : hs = hs.take (cfg.speechFrames - 1) ++ e :: ys := by
      conv_lhs => rw [← List.take_append_drop (cfg.speechFrames - 1) hs]
      rw [hd]
    exact ⟨hs.take (cfg.speechFrames - 1), e, ys, hseq,
      by rw [List.length_take]; omega⟩
  obtain ⟨us, d, zs, rfl, huslen⟩ :
      ∃ us d zs, ls = us ++ d :: zs ∧ us.length = cfg.silenceFrames - 1 := by
    obtain ⟨d, zs, hd⟩ : ∃ d zs, ls.drop (cfg.silenceFrames - 1) = d :: zs := by
      cases hdrop : ls.drop (cfg.silenceFrames - 1) with
      | nil =>
        exfalso
        have := congrArg List.length hdrop
        simp only [List.length_drop, List.length_nil] at this
        omega
      | cons d zs => exact ⟨d, zs, rfl⟩
    have hseq : ls = ls.take (cfg.silenceFrames - 1) ++ d :: zs := by
      conv_lhs => rw [← List.take_append_drop (cfg.silenceFrames - 1) ls]
      rw [hd]
    exact ⟨ls.take (cfg.silenceFrames - 1), d, zs, hseq,
      by rw [List.length_take]; omega⟩
  have hxs_hi : ∀ f ∈ xs, cfg.threshold < f :=
    fun f hf => hhi f (List.mem_append_left _ hf)
  have he_hi : cfg.threshold < e :=
    hhi e (List.mem_append_right _ (List.mem_cons_self _ _))
  have hys_hi : ∀ f ∈ ys, cfg.threshold < f :=
    fun f hf => hhi f (List.mem_append_right _ (List.mem_cons_of_mem _ hf))
  have hus_lo : ∀ f ∈ us, f ≤ cfg.threshold :=
    fun f hf => hlo f (List.mem_append_left _ hf)
  have hd_lo : d ≤ cfg.threshold :=
    hlo d (List.mem_append_right _ (List.mem_cons_self _ _))
  have hzs_lo : ∀ f ∈ zs, f ≤ cfg.threshold :=
    fun f hf => hlo f (List.mem_append_right _ (List.mem_cons_of_mem _ hf))
  have hfinal : recordingPhase true cfg ((xs ++ e :: ys) ++ (us ++ d :: zs)) =
      ⟨true, ⟨false, 0⟩,
        xs.length + 1 + ys.length + us.length + 1 + zs.length,
        [⟨[e] ++ ys ++ us, Lifecycle.Closed⟩],
        [(VadEvent.SegmentStart, xs.length),
         (VadEvent.SegmentEnd, xs.length + 1 + ys.length + us.length)]⟩ := by
    unfold recordingPhase runSession
    rw [List.foldl_cons]
    have hstart : sessionStep true cfg initSession SessionEvent.start =
        ⟨true, ⟨false, 0⟩, 0, [], []⟩ := rfl
    rw [hstart]
    simp only [List.map_append, List.map_cons]
    simp only [List.foldl_append, List.foldl_cons]
    rw [foldl_vad_silence_above cfg xs hxs_hi 0 0 [] [] (by omega)]
    simp only [Nat.zero_add]
    have hstep1 : sessionStep true cfg
        ⟨true, ⟨false, xs.length⟩, xs.length, [], []⟩
        (SessionEvent.frame e) =
        ⟨true, ⟨true, 0⟩, xs.length + 1, [⟨[e], Lifecycle.Open⟩],
          [(VadEvent.SegmentStart, xs.length)]⟩ := by
      have h1 : cfg.speechFrames ≤ xs.length + 1 := by omega
      simp [sessionStep, vadStep, he_hi, h1]
    rw [hstep1,
      foldl_vad_speaking_above cfg ys hys_hi (xs.length + 1) [e]
        [(VadEvent.SegmentStart, xs.length)],
      foldl_vad_speaking_below cfg us hus_lo 0 (xs.length + 1 + ys.length)
        ([e] ++ ys) [(VadEvent.SegmentStart, xs.length)] (by omega)]
    simp only [Nat.zero_add]
    have hstep2 : sessionStep true cfg
        ⟨true, ⟨true, us.length⟩, xs.length + 1 + ys.length + us.length,
          [⟨[e] ++ ys ++ us, Lifecycle.Open⟩],
          [(VadEvent.SegmentStart, xs.length)]⟩ (SessionEvent.frame d) =
        ⟨true, ⟨false, 0⟩, xs.length + 1 + ys.length + us.length + 1,
          [⟨[e] ++ ys ++ us, Lifecycle.Closed⟩],
          [(VadEvent.SegmentStart, xs.length),
           (VadEvent.SegmentEnd, xs.length + 1 + ys.length + us.length)]⟩ := by
      have h1 : cfg.silenceFrames ≤ us.length + 1 := by omega
      simp [sessionStep, vadStep, hd_lo, h1, closeOpenSegs]
    rw [hstep2,
      foldl_vad_silence_below cfg zs hzs_lo
        (xs.length + 1 + ys.length + us.length + 1)
        [⟨[e] ++ ys ++ us, Lifecycle.Closed⟩]
        [(VadEvent.SegmentStart, xs.length),
         (VadEvent.SegmentEnd, xs.length + 1 + ys.length + us.length)]]
  rw [hfinal]
  refine ⟨?_, ?_, ?_⟩
  · have e1 : cfg.speechFrames - 1 = xs.length := by omega
    have e2 : (xs ++ e :: ys).length + cfg.silenceFrames - 1 =
        xs.length + 1 + ys.length + us.length := by
      simp only [List.length_append, List.length_cons]
      omega
    rw [e1, e2]
  · have e1 : cfg.speechFrames - 1 = xs.length := by omega
    have e4 : cfg.silenceFrames - 1 = us.length := by omega
    rw [e1, e4, List.drop_left, List.take_left]
    rfl
  · intro s hsmem
    simp only [List.mem_singleton] at hsmem
    subst hsmem
    simp only [List.length_append, List.length_cons, List.length_nil]
    omega

/-- Concrete instantiation of the VAD property with varying energies:
threshold 10, N = 2, M = 3, four above-threshold frames of differing
energies then five below-threshold frames of differing energies. -/
theorem vad_one_start_one_end_witness :
    (recordingPhase true ⟨10, 2, 3⟩
        ([20, 30, 15, 11] ++ [1, 5, 0, 9, 2])).events =
        [(VadEvent.SegmentStart, 1), (VadEvent.SegmentEnd, 6)] ∧
    (recordingPhase true ⟨10, 2, 3⟩
        ([20, 30, 15, 11] ++ [1, 5, 0, 9, 2])).segments =
        [⟨[30, 15, 11] ++ [1, 5], Lifecycle.Closed⟩] ∧
    ∀ s ∈ (recordingPhase true ⟨10, 2, 3⟩
        ([20, 30, 15, 11] ++ [1, 5, 0, 9, 2])).segments,
      s.frames.length = 5 :=
  vad_one_start_one_end ⟨10, 2, 3⟩ [20, 30, 15, 11] [1, 5, 0, 9, 2] (by decide)
    (by decide) (by decide) (by decide) (by decide) (by decide)

/-! ## Segment lifecycle machine (spec section 3 invariant, section 8)

Modelled from the spec: Segments are owned by the Segment Recorder until
hand-off to the Transcription Dispatcher; AudioFrames are immutable once
captured and are appended only to the currently open Segment; each
lifecycle operation is guarded by the state it legally starts from. -/

/-- Modelled from the spec: a Segment as an ordered sequence of captured
AudioFrames (by id) with its lifecycle state. -/
structure RecSegment where
  frames : List Nat
  status : Lifecycle
deriving DecidableEq, Repr

/-- Whole-pipeline state for the lifecycle machine: segments in creation
order, the id of the next captured AudioFrame, and the produced
TranscriptionResults as (segment index, text) pairs. -/
structure RecorderState where
  segments : List RecSegment
  nextFrame : Nat
  results : List (Nat × String)
deriving DecidableEq, Repr

/-- Operations of the Segment Recorder and Transcription Dispatcher that
touch Segment lifecycles. -/
inductive RecOp where
  | openSeg
  | captureFrame
  | closeSeg (i : Nat)
  | submitSeg (i : Nat)
  | transcribeSeg (i : Nat) (text : String)
  | discardSeg (i : Nat)
deriving DecidableEq, Repr

/-- Applies `f` to the segment at index `i`, leaving the rest alone. -/
def modifySeg (f : RecSegment → RecSegment) : Nat → List RecSegment → List RecSegment
  | _, [] => []
  | 0, s :: rest => f s :: rest
  | i + 1, s :: rest => s :: modifySeg f i rest

/-- Appends a fresh frame id to the first open segment, if any. -/
def appendToFirstOpen (n : Nat) : List RecSegment → List RecSegment
  | [] => []
  | s :: rest =>
    if s.status = Lifecycle.Open then { s with frames := s.frames ++ [n] } :: rest
    else s :: appendToFirstOpen n rest

/-- Lifecycle state of the segment at index `i`, when it exists. -/
def segStatus (σ : RecorderState) (i : Nat) : Option Lifecycle :=
  (σ.segments.get? i).map RecSegment.status

/-- Modelled from the spec: one lifecycle operation. Every
status-changing operation is guarded by the state it legally starts
from; capture appends the fresh frame id to the open segment; a
transcription result is recorded exactly when a Submitted segment
becomes Transcribed. -/
def applyOp (σ : RecorderState) : RecOp → RecorderState
  | RecOp.openSeg =>
    if σ.segments.all (fun s => decide (s.status ≠ Lifecycle.Open)) then
      { σ with segments := σ.segments ++ [⟨[], Lifecycle.Open⟩] }
    else σ
  | RecOp.captureFrame =>
    { σ with
      segments := appendToFirstOpen σ.nextFrame σ.segments
      nextFrame := σ.nextFrame + 1 }
  | RecOp.closeSeg i =>
    if segStatus σ i = some Lifecycle.Open then
      { σ with
        segments := modifySeg (fun s => { s with status := Lifecycle.Closed }) i
          σ.segments }
    else σ
  | RecOp.submitSeg i =>
    if segStatus σ i = some Lifecycle.Closed then
      { σ with
        segments := modifySeg (fun s => { s with status := Lifecycle.Submitted }) i
          σ.segments }
    else σ
  | RecOp.transcribeSeg i text =>
    if segStatus σ i = some Lifecycle.Submitted then
      { σ with
        segments := modifySeg (fun s => { s with status := Lifecycle.Transcribed }) i
          σ.segments
        results := σ.results ++ [(i, text)] }
    else σ
  | RecOp.discardSeg i =>
    if segStatus σ i = some Lifecycle.Open ∨ segStatus σ i = some Lifecycle.Closed ∨
        segStatus σ i = some Lifecycle.Submitted then
      { σ with
        segments := modifySeg (fun s => { s with status := Lifecycle.Discarded }) i
          σ.segments }
    else σ

/-- Empty initial recorder state. -/
def initRecorder : RecorderState := ⟨[], 0, []⟩

/-- Runs the lifecycle machine over a list of operations. -/
def runRecorder (ops : List RecOp) : RecorderState := ops.foldl applyOp initRecorder

/-- Lifecycle edges the spec allows: strictly forward through
Open→Closed→Submitted→Transcribed, with Discarded reachable from any
state before Transcribed. -/
def allowedTransition : Lifecycle → Lifecycle → Bool
  | Lifecycle.Open, Lifecycle.Closed => true
  | Lifecycle.Closed, Lifecycle.Submitted => true
  | Lifecycle.Submitted, Lifecycle.Transcribed => true
  | Lifecycle.Open, Lifecycle.Discarded => true
  | Lifecycle.Closed, Lifecycle.Discarded => true
  | Lifecycle.Submitted, Lifecycle.Discarded => true
  | _, _ => false

/-- Position of each lifecycle state along the forward order. -/
def lifecycleRank : Lifecycle → Nat
  | Lifecycle.Open => 0
  | Lifecycle.Closed => 1
  | Lifecycle.Submitted => 2
  | Lifecycle.Transcribed => 3
  | Lifecycle.Discarded => 4

/-- Relation between a segment slot's status before and after one
operation: a slot keeps its status, takes an allowed transition, appears
as a fresh Open segment, or stays absent; slots never disappear. -/
def statusStep : Option Lifecycle → Option Lifecycle → Prop
  | none, none => True
  | none, some b => b = Lifecycle.Open
  | some a, some b => a = b ∨ allowedTransition a b = true
  | some _, none => False

/-- A slot relates to itself under `statusStep`. -/
theorem statusStep_refl (o : Option Lifecycle) : statusStep o o := by
  cases o with
  | none => trivial
  | some a => exact Or.inl rfl

/-- Number of TranscriptionResults recorded for segment index `i`. -/
def resultsCount (σ : RecorderState) (i : Nat) : Nat :=
  σ.results.countP (fun p => decide (p.1 = i))

/-- Two segments share no frame. -/
def segDisj (s t : RecSegment) : Prop := ∀ f, f ∈ s.frames → f ∉ t.frames

/-- The element at an index after `modifySeg`. -/
theorem modifySeg_get? (f : RecSegment → RecSegment) :
    ∀ (j : Nat) (l : List RecSegment) (i : Nat),
      (modifySeg f j l).get? i =
        if i = j then (l.get? j).map f else l.get? i := by
  intro j l
  induction l generalizing j with
  | nil => intro i; cases j <;> simp [modifySeg]
  | cons s rest ih =>
    intro i
    cases j with
    | zero =>
      cases i with
      | zero => simp [modifySeg]
      | succ k => simp [modifySeg]
    | succ j' =>
      cases i with
      | zero => simp [modifySeg]
      | succ k =>
        simp only [modifySeg, List.get?_cons_succ, ih j' k]
        by_cases hk : k = j' <;> simp [hk]

/-- Appending a frame to the first open segment does not change any
segment's status. -/
theorem appendToFirstOpen_status (n : Nat) :
    ∀ (l : List RecSegment) (i : Nat),
      ((appendToFirstOpen n l).get? i).map RecSegment.status =
        (l.get? i).map RecSegment.status := by
  intro l
  induction l with
  | nil => intro i; simp [appendToFirstOpen]
  | cons s rest ih =>
    intro i
    rw [appendToFirstOpen]
    by_cases hs : s.status = Lifecycle.Open
    · rw [if_pos hs]
      cases i with
      | zero => simp
      | succ k => simp
    · rw [if_neg hs]
      cases i with
      | zero => simp
      | succ k => simpa using ih k

/-- Members of `modifySeg f j l` come from `l`, possibly through `f`. -/
theorem mem_modifySeg (f : RecSegment → RecSegment) :
    ∀ (j : Nat) (l : List RecSegment) (t : RecSegment),
      t ∈ modifySeg f j l → ∃ t₀ ∈ l, t = t₀ ∨ t = f t₀ := by
  intro j l
  induction l generalizing j with
  | nil => intro t ht; cases j <;> simp [modifySeg] at ht
  | cons s rest ih =>
    intro t ht
    cases j with
    | zero =>
      rw [modifySeg] at ht
      rcases List.mem_cons.mp ht with rfl | ht'
      · exact ⟨s, List.mem_cons_self _ _, Or.inr rfl⟩
      · exact ⟨t, List.mem_cons_of_mem _ ht', Or.inl rfl⟩
    | succ j' =>
      rw [modifySeg] at ht
      rcases List.mem_cons.mp ht with rfl | ht'
      · exact ⟨t, List.mem_cons_self _ _, Or.inl rfl⟩
      · obtain ⟨t₀, ht₀, hcase⟩ := ih j' t ht'
        exact ⟨t₀, List.mem_cons_of_mem _ ht₀, hcase⟩

/-- Members of `appendToFirstOpen n l` have the frames of a member of
`l`, at most extended by the fresh id `n`. -/
theorem mem_appendToFirstOpen (n : Nat) :
    ∀ (l : List RecSegment) (t : RecSegment),
      t ∈ appendToFirstOpen n l →
        ∃ t₀ ∈ l, t.frames = t₀.frames ∨ t.frames = t₀.frames ++ [n] := by
  intro l
  induction l with
  | nil => intro t ht; simp [appendToFirstOpen] at ht
  | cons s rest ih =>
    intro t ht
    rw [appendToFirstOpen] at ht
    by_cases hs : s.status = Lifecycle.Open
    · rw [if_pos hs] at ht
      rcases List.mem_cons.mp ht with rfl | ht'
      · exact ⟨s, List.mem_cons_self _ _, Or.inr rfl⟩
      · exact ⟨t, List.mem_cons_of_mem _ ht', Or.inl rfl⟩
    · rw [if_neg hs] at ht
      rcases List.mem_cons.mp ht with rfl | ht'
      · exact ⟨t, List.mem_cons_self _ _, Or.inl rfl⟩
      · obtain ⟨t₀, ht₀, hcase⟩ := ih t ht'
        exact ⟨t₀, List.mem_cons_of_mem _ ht₀, hcase⟩

/-- Unpacks a known status into the underlying segment. -/
theorem segStatus_some (σ : RecorderState) (i : Nat) (x : Lifecycle)
    (h : segStatus σ i = some x) :
    ∃ s, σ.segments.get? i = some s ∧ s.status = x := by
  unfold segStatus at h
  cases hs : σ.segments.get? i with
  | none => rw [hs] at h; exact absurd h (by simp)
  | some s => rw [hs] at h; exact ⟨s, rfl, by simpa using h⟩

/-- Every operation moves every segment slot along `statusStep`: the
status is kept, takes one allowed forward transition, or the slot is
freshly created as Open. -/
theorem applyOp_statusStep (σ : RecorderState) (op : RecOp) (i : Nat) :
    statusStep (segStatus σ i) (segStatus (applyOp σ op) i) := by
  cases op with
  | openSeg =>
    simp only [applyOp]
    by_cases hg : σ.segments.all (fun s => decide (s.status ≠ Lifecycle.Open)) = true
    · rw [if_pos hg]
      simp only [segStatus]
      rcases lt_trichotomy i σ.segments.length with hlt | heq | hgt
      · rw [List.get?_append hlt]
        exact statusStep_refl _
      · rw [List.get?_append_right (le_of_eq heq.symm),
          List.get?_eq_none.mpr (le_of_eq heq.symm), heq, Nat.sub_self]
        exact rfl
      · rw [List.get?_append_right (le_of_lt hgt),
          List.get?_eq_none.mpr (le_of_lt hgt),
          List.get?_eq_none.mpr (by simp; omega)]
        exact trivial
    · rw [if_neg hg]
      exact statusStep_refl _
  | captureFrame =>
    simp only [applyOp, segStatus]
    rw [appendToFirstOpen_status]
    exact statusStep_refl _
  | closeSeg j =>
    simp only [applyOp]
    by_cases hg : segStatus σ j = some Lifecycle.Open
    · rw [if_pos hg]
      simp only [segStatus]
      rw [modifySeg_get?]
      by_cases hij : i = j
      · subst hij
        rw [if_pos rfl]
        obtain ⟨s, hs, hstat⟩ := segStatus_some σ i Lifecycle.Open hg
        rw [hs]
        simp only [Option.map_some']
        rw [hstat]
        exact Or.inr rfl
      · rw [if_neg hij]
        exact statusStep_refl _
    · rw [if_neg hg]
      exact statusStep_refl _
  | submitSeg j =>
    simp only [applyOp]
    by_cases hg : segStatus σ j = some Lifecycle.Closed
    · rw [if_pos hg]
      simp only [segStatus]
      rw [modifySeg_get?]
      by_cases hij : i = j
      · subst hij
        rw [if_pos rfl]
        obtain ⟨s, hs, hstat⟩ := segStatus_some σ i Lifecycle.Closed hg
        rw [hs]
        simp only [Option.map_some']
        rw [hstat]
        exact Or.inr rfl
      · rw [if_neg hij]
        exact statusStep_refl _
    · rw [if_neg hg]
      exact statusStep_refl _
  | transcribeSeg j text =>
    simp only [applyOp]
    by_cases hg : segStatus σ j = some Lifecycle.Submitted
    · rw [if_pos hg]
      simp only [segStatus]
      rw [modifySeg_get?]
      by_cases hij : i = j
      · subst hij
        rw [if_pos rfl]
        obtain ⟨s, hs, hstat⟩ := segStatus_some σ i Lifecycle.Submitted hg
        rw [hs]
        simp only [Option.map_some']
        rw [hstat]
        exact Or.inr rfl
      · rw [if_neg hij]
        exact statusStep_refl _
    · rw [if_neg hg]
      exact statusStep_refl _
  | discardSeg j =>
    simp only [applyOp]
    by_cases hg : segStatus σ j = some Lifecycle.Open ∨
        segStatus σ j = some Lifecycle.Closed ∨
        segStatus σ j = some Lifecycle.Submitted
    · rw [if_pos hg]
      simp only [segStatus]
      rw [modifySeg_get?]
      by_cases hij : i = j
      · subst hij
        rw [if_pos rfl]
        rcases hg with hg | hg | hg <;>
        · obtain ⟨s, hs, hstat⟩ := segStatus_some σ i _ hg
          rw [hs]
          simp only [Option.map_some']
          rw [hstat]
          exact Or.inr rfl
      · rw [if_neg hij]
        exact statusStep_refl _
    · rw [if_neg hg]
      exact statusStep_refl _

/-- Invariant tying results to statuses: a segment index has exactly one
TranscriptionResult when its segment is Transcribed and none otherwise. -/
def transInv (σ : RecorderState) : Prop :=
  ∀ i, resultsCount σ i =
    if segStatus σ i = some Lifecycle.Transcribed then 1 else 0

/-- The empty state has no results and no Transcribed segment. -/
theorem transInv_init : transInv initRecorder := by
  intro i
  simp [resultsCount, initRecorder, segStatus]

/-- A status-only `modifySeg` update away from Transcribed preserves the
invariant when the touched slot was not Transcribed before or after. -/
theorem transInv_modify (σ : RecorderState) (j : Nat) (x y : Lifecycle)
    (hguard : segStatus σ j = some x)
    (hx : x ≠ Lifecycle.Transcribed) (hy : y ≠ Lifecycle.Transcribed)
    (h : transInv σ) :
    transInv { σ with
      segments := modifySeg (fun s => { s with status := y }) j σ.segments } := by
  intro i
  have hres : resultsCount { σ with
      segments := modifySeg (fun s => { s with status := y }) j σ.segments } i =
      resultsCount σ i := rfl
  rw [hres, h i]
  refine (if_congr ?_ rfl rfl).symm
  show (segStatus _ i = _) ↔ _
  simp only [segStatus]
  rw [modifySeg_get?]
  by_cases hij : i = j
  · subst hij
    rw [if_pos rfl]
    obtain ⟨s, hs, hstat⟩ := segStatus_some σ i x hguard
    rw [hs]
    simp only [Option.map_some']
    constructor
    · intro hcon
      exact absurd (by simpa using hcon) hy
    · intro hcon
      rw [show RecSegment.status s = x from hstat] at hcon
      exact absurd (by simpa using hcon) hx
  · rw [if_neg hij]

/-- Each lifecycle operation preserves the results/status invariant. -/
theorem transInv_step (σ : RecorderState) (op : RecOp) (h : transInv σ) :
    transInv (applyOp σ op) := by
  cases op with
  | openSeg =>
    simp only [applyOp]
    by_cases hg : σ.segments.all (fun s => decide (s.status ≠ Lifecycle.Open)) = true
    · rw [if_pos hg]
      intro i
      have hres : resultsCount { σ with
          segments := σ.segments ++ [⟨[], Lifecycle.Open⟩] } i =
          resultsCount σ i := rfl
      rw [hres, h i]
      refine (if_congr ?_ rfl rfl).symm
      simp only [segStatus]
      rcases lt_trichotomy i σ.segments.length with hlt | heq | hgt
      · rw [List.get?_append hlt]
      · rw [List.get?_append_right (le_of_eq heq.symm),
          List.get?_eq_none.mpr (le_of_eq heq.symm), heq, Nat.sub_self]
        simp
      · rw [List.get?_append_right (le_of_lt hgt),
          List.get?_eq_none.mpr (le_of_lt hgt),
          List.get?_eq_none.mpr (by simp; omega)]
    · rw [if_neg hg]
      exact h
  | captureFrame =>
    intro i
    have hres : resultsCount (applyOp σ RecOp.captureFrame) i =
        resultsCount σ i := rfl
    rw [hres, h i]
    refine (if_congr ?_ rfl rfl).symm
    simp only [applyOp, segStatus]
    rw [appendToFirstOpen_status]
  | closeSeg j =>
    simp only [applyOp]
    by_cases hg : segStatus σ j = some Lifecycle.Open
    · rw [if_pos hg]
      exact transInv_modify σ j Lifecycle.Open Lifecycle.Closed hg
        (by simp) (by simp) h
    · rw [if_neg hg]
      exact h
  | submitSeg j =>
    simp only [applyOp]
    by_cases hg : segStatus σ j = some Lifecycle.Closed
    · rw [if_pos hg]
      exact transInv_modify σ j Lifecycle.Closed Lifecycle.Submitted hg
        (by simp) (by simp) h
    · rw [if_neg hg]
      exact h
  | transcribeSeg j text =>
    simp only [applyOp]
    by_cases hg : segStatus σ j = some Lifecycle.Submitted
    · rw [if_pos hg]
      intro i
      have hres : resultsCount { σ with
          segments := modifySeg (fun s => { s with status := Lifecycle.Transcribed }) j
            σ.segments
          results := σ.results ++ [(j, text)] } i =
          resultsCount σ i + (if j = i then 1 else 0) := by
        unfold resultsCount
        simp only [List.countP_append]
        congr 1
        by_cases hji : j = i <;> simp [List.countP_cons, List.countP_nil, hji]
      rw [hres, h i]
      have hstat : segStatus { σ with
          segments := modifySeg (fun s => { s with status := Lifecycle.Transcribed }) j
            σ.segments
          results := σ.results ++ [(j, text)] } i =
          (if i = j then some Lifecycle.Transcribed else segStatus σ i) := by
        simp only [segStatus]
        rw [modifySeg_get?]
        by_cases hij : i = j
        · subst hij
          rw [if_pos rfl, if_pos rfl]
          obtain ⟨s, hs, _⟩ := segStatus_some σ i Lifecycle.Submitted hg
          rw [hs]
          simp
        · rw [if_neg hij, if_neg hij]
      rw [hstat]
      by_cases hij : i = j
      · subst hij
        rw [if_pos rfl, if_pos rfl, if_pos rfl, hg]
        simp
      · have hji : ¬ j = i := fun hh => hij hh.symm
        rw [if_neg hij, if_neg hji]
        omega
    · rw [if_neg hg]
      exact h
  | discardSeg j =>
    simp only [applyOp]
    by_cases hg : segStatus σ j = some Lifecycle.Open ∨
        segStatus σ j = some Lifecycle.Closed ∨
        segStatus σ j = some Lifecycle.Submitted
    · rw [if_pos hg]
      rcases hg with hg | hg | hg
      · exact transInv_modify σ j Lifecycle.Open Lifecycle.Discarded hg
          (by simp) (by simp) h
      · exact transInv_modify σ j Lifecycle.Closed Lifecycle.Discarded hg
          (by simp) (by simp) h
      · exact transInv_modify σ j Lifecycle.Submitted Lifecycle.Discarded hg
          (by simp) (by simp) h
    · rw [if_neg hg]
      exact h

/-- Frame-ownership invariant: distinct segments hold disjoint frame
sets, and every held frame id is below the fresh-id counter. -/
def framesInv (σ : RecorderState) : Prop :=
  σ.segments.Pairwise segDisj ∧
    ∀ s ∈ σ.segments, ∀ f ∈ s.frames, f < σ.nextFrame

/-- The empty state trivially satisfies the frame invariant. -/
theorem framesInv_init : framesInv initRecorder := by
  constructor
  · simp [initRecorder]
  · intro s hs
    simp [initRecorder] at hs

/-- Capturing one fresh frame keeps segments pairwise disjoint and keeps
all frame ids below the bumped counter. -/
theorem appendToFirstOpen_preserves (n : Nat) :
    ∀ l : List RecSegment, l.Pairwise segDisj →
      (∀ s ∈ l, ∀ f ∈ s.frames, f < n) →
      ((appendToFirstOpen n l).Pairwise segDisj ∧
        ∀ s ∈ appendToFirstOpen n l, ∀ f ∈ s.frames, f < n + 1) := by
  intro l
  induction l with
  | nil =>
    intro _ _
    constructor
    · simp [appendToFirstOpen]
    · intro s hs
      simp [appendToFirstOpen] at hs
  | cons s rest ih =>
    intro hpw hbd
    obtain ⟨hhead, hrest⟩ := List.pairwise_cons.mp hpw
    have hbs : ∀ f ∈ s.frames, f < n := hbd s (List.mem_cons_self _ _)
    have hbrest : ∀ t ∈ rest, ∀ f ∈ t.frames, f < n :=
      fun t ht => hbd t (List.mem_cons_of_mem _ ht)
    rw [appendToFirstOpen]
    by_cases hs : s.status = Lifecycle.Open
    · rw [if_pos hs]
      constructor
      · apply List.pairwise_cons.mpr
        refine ⟨?_, hrest⟩
        intro t ht f hf
        rcases List.mem_append.mp hf with hf' | hf'
        · exact hhead t ht f hf'
        · have hfn : f = n := by simpa using hf'
          subst hfn
          intro hcon
          have := hbrest t ht f hcon
          omega
      · intro u hu f hf
        rcases List.mem_cons.mp hu with rfl | hu'
        · rcases List.mem_append.mp hf with hf' | hf'
          · have := hbs f hf'; omega
          · have : f = n := by simpa using hf'
            omega
        · have := hbrest u hu' f hf
          omega
    · rw [if_neg hs]
      obtain ⟨ihp, ihb⟩ := ih hrest hbrest
      constructor
      · apply List.pairwise_cons.mpr
        refine ⟨?_, ihp⟩
        intro t ht f hf
        obtain ⟨t₀, ht₀, hcase⟩ := mem_appendToFirstOpen n rest t ht
        have hdisj : f ∉ t₀.frames := hhead t₀ ht₀ f hf
        have hfn : f < n := hbs f hf
        rcases hcase with he | he
        · rw [he]; exact hdisj
        · rw [he]
          intro hcon
          rcases List.mem_append.mp hcon with hcon' | hcon'
          · exact hdisj hcon'
          · have : f = n := by simpa using hcon'
            omega
      · intro u hu f hf
        rcases List.mem_cons.mp hu with rfl | hu'
        · have := hbs f hf; omega
        · exact ihb u hu' f hf

/-- Status-only segment updates keep segments pairwise disjoint. -/
theorem modifySeg_pairwise (f : RecSegment → RecSegment)
    (hf : ∀ s, (f s).frames = s.frames) :
    ∀ (j : Nat) (l : List RecSegment), l.Pairwise segDisj →
      (modifySeg f j l).Pairwise segDisj := by
  intro j l
  induction l generalizing j with
  | nil => intro _; cases j <;> simp [modifySeg]
  | cons s rest ih =>
    intro hpw
    obtain ⟨hhead, hrest⟩ := List.pairwise_cons.mp hpw
    cases j with
    | zero =>
      rw [modifySeg]
      apply List.pairwise_cons.mpr
      refine ⟨?_, hrest⟩
      intro t ht g hg
      rw [hf] at hg
      exact hhead t ht g hg
    | succ j' =>
      rw [modifySeg]
      apply List.pairwise_cons.mpr
      refine ⟨?_, ih j' hrest⟩
      intro t ht g hg
      obtain ⟨t₀, ht₀, hcase⟩ := mem_modifySeg f j' rest t ht
      have hnotin : g ∉ t₀.frames := hhead t₀ ht₀ g hg
      rcases hcase with rfl | rfl
      · exact hnotin
      · show g ∉ (f t₀).frames
        rw [hf]
        exact hnotin

/-- Status-only segment updates keep every frame id below the counter. -/
theorem modifySeg_bound (f : RecSegment → RecSegment)
    (hf : ∀ s, (f s).frames = s.frames) (j : Nat) (l : List RecSegment) (n : Nat)
    (hb : ∀ s ∈ l, ∀ g ∈ s.frames, g < n) :
    ∀ s ∈ modifySeg f j l, ∀ g ∈ s.frames, g < n := by
  intro s hs g hg
  obtain ⟨t₀, ht₀, hcase⟩ := mem_modifySeg f j l s hs
  rcases hcase with rfl | rfl
  · exact hb _ ht₀ g hg
  · exact hb _ ht₀ g (by rwa [hf] at hg)

/-- Each lifecycle operation preserves the frame-ownership invariant. -/
theorem framesInv_step (σ : RecorderState) (op : RecOp) (h : framesInv σ) :
    framesInv (applyOp σ op) := by
  obtain ⟨hpw, hbd⟩ := h
  cases op with
  | openSeg =>
    simp only [applyOp]
    by_cases hg : σ.segments.all (fun s => decide (s.status ≠ Lifecycle.Open)) = true
    · rw [if_pos hg]
      constructor
      · apply List.pairwise_append.mpr
        refine ⟨hpw, by simp, ?_⟩
        intro s hs t ht f hf
        have : t = (⟨[], Lifecycle.Open⟩ : RecSegment) := by simpa using ht
        rw [this]
        simp
      · intro s hs f hf
        rcases List.mem_append.mp hs with hs' | hs'
        · exact hbd s hs' f hf
        · have : s = (⟨[], Lifecycle.Open⟩ : RecSegment) := by simpa using hs'
          rw [this] at hf
          simp at hf
    · rw [if_neg hg]
      exact ⟨hpw, hbd⟩
  | captureFrame =>
    simp only [applyOp]
    exact appendToFirstOpen_preserves σ.nextFrame σ.segments hpw hbd
  | closeSeg j =>
    simp only [applyOp]
    by_cases hg : segStatus σ j = some Lifecycle.Open
    · rw [if_pos hg]
      exact ⟨modifySeg_pairwise (fun s => { s with status := Lifecycle.Closed })
          (fun _ => rfl) j σ.segments hpw,
        modifySeg_bound (fun s => { s with status := Lifecycle.Closed })
          (fun _ => rfl) j σ.segments σ.nextFrame hbd⟩
    · rw [if_neg hg]
      exact ⟨hpw, hbd⟩
  | submitSeg j =>
    simp only [applyOp]
    by_cases hg : segStatus σ j = some Lifecycle.Closed
    · rw [if_pos hg]
      exact ⟨modifySeg_pairwise (fun s => { s with status := Lifecycle.Submitted })
          (fun _ => rfl) j σ.segments hpw,
        modifySeg_bound (fun s => { s with status := Lifecycle.Submitted })
          (fun _ => rfl) j σ.segments σ.nextFrame hbd⟩
    · rw [if_neg hg]
      exact ⟨hpw, hbd⟩
  | transcribeSeg j text =>
    simp only [applyOp]
    by_cases hg : segStatus σ j = some Lifecycle.Submitted
    · rw [if_pos hg]
      exact ⟨modifySeg_pairwise (fun s => { s with status := Lifecycle.Transcribed })
          (fun _ => rfl) j σ.segments hpw,
        modifySeg_bound (fun s => { s with status := Lifecycle.Transcribed })
          (fun _ => rfl) j σ.segments σ.nextFrame hbd⟩
    · rw [if_neg hg]
      exact ⟨hpw, hbd⟩
  | discardSeg j =>
    simp only [applyOp]
    by_cases hg : segStatus σ j = some Lifecycle.Open ∨
        segStatus σ j = some Lifecycle.Closed ∨
        segStatus σ j = some Lifecycle.Submitted
    · rw [if_pos hg]
      exact ⟨modifySeg_pairwise (fun s => { s with status := Lifecycle.Discarded })
          (fun _ => rfl) j σ.segments hpw,
        modifySeg_bound (fun s => { s with status := Lifecycle.Discarded })
          (fun _ => rfl) j σ.segments σ.nextFrame hbd⟩
    · rw [if_neg hg]
      exact ⟨hpw, hbd⟩

/-- Propagation of an invariant along a run of the lifecycle machine. -/
theorem runRecorder_inv {P : RecorderState → Prop} (h0 : P initRecorder)
    (hstep : ∀ σ op, P σ → P (applyOp σ op)) (ops : List RecOp) :
    P (runRecorder ops) := by
  unfold runRecorder
  suffices h : ∀ (l : List RecOp) (σ : RecorderState), P σ → P (l.foldl applyOp σ) by
    exact h ops initRecorder h0
  intro l
  induction l with
  | nil => intro σ hσ; exact hσ
  | cons op l ih =>
    intro σ hσ
    exact ih _ (hstep σ op hσ)

/-- C1: every Segment's lifecycle moves strictly forward through
Open→Closed→Submitted→Transcribed with Discarded reachable from any
state before Transcribed (every operation changes a slot only along an
allowed, rank-increasing edge); no Segment is ever transcribed more than
once (at most one result per segment index in every reachable state);
and no AudioFrame belongs to more than one Segment (segments are
pairwise frame-disjoint in every reachable state). -/
theorem segment_lifecycle_invariants :
    (∀ a b, allowedTransition a b = true → lifecycleRank a < lifecycleRank b) ∧
    (∀ (σ : RecorderState) (op : RecOp) (i : Nat),
      statusStep (segStatus σ i) (segStatus (applyOp σ op) i)) ∧
    (∀ (ops : List RecOp) (i : Nat), resultsCount (runRecorder ops) i ≤ 1) ∧
    (∀ ops : List RecOp, (runRecorder ops).segments.Pairwise segDisj) := by
  refine ⟨?_, applyOp_statusStep, ?_, ?_⟩
  · intro a b hab
    revert hab
    cases a <;> cases b <;> decide
  · intro ops i
    have hinv := runRecorder_inv transInv_init transInv_step ops i
    rw [hinv]
    split <;> omega
  · intro ops
    exact (runRecorder_inv framesInv_init framesInv_step ops).1

/-- Concrete instantiation of the lifecycle invariants on a run that
opens, records, closes, submits and transcribes one segment, then opens,
records and discards a second. -/
def demoOps : List RecOp :=
  [RecOp.openSeg, RecOp.captureFrame, RecOp.closeSeg 0, RecOp.submitSeg 0,
   RecOp.transcribeSeg 0 "hello world", RecOp.openSeg, RecOp.captureFrame,
   RecOp.discardSeg 1]

/-- Witness instantiating the lifecycle theorem on a concrete run and a
concrete allowed transition. -/
theorem segment_lifecycle_invariants_witness :
    lifecycleRank Lifecycle.Open < lifecycleRank Lifecycle.Closed ∧
    resultsCount (runRecorder demoOps) 0 ≤ 1 ∧
    (runRecorder demoOps).segments.Pairwise segDisj :=
  ⟨segment_lifecycle_invariants.1 Lifecycle.Open Lifecycle.Closed rfl,
   segment_lifecycle_invariants.2.2.1 demoOps 0,
   segment_lifecycle_invariants.2.2.2 demoOps⟩

end WhisperR
